import Mathlib

/-!
Verification development for the browser text-to-MP3/MP4 converter.

Strings are modelled as `List Char`. The functions below are shallow
embeddings of the functions in `src/app/layout.tsx`:

* `splitText`   embeds `splitText(input, maxLen)` (the Text Segmenter),
* `wrapText`    embeds `wrapText(ctx, text, maxWidth)` (canvas word-wrap),
  with the opaque `ctx.measureText(s).width` modelled as an arbitrary
  function `measure : List Char → Nat`,
* `driveChunks` embeds the callback chain of `speakText` / `speakChunk`
  (the Speech-and-Capture Driver's sequential TTS loop) as the trace of
  events it produces, with the synthesizer's per-utterance outcome
  modelled as a function `ok : Nat → Bool`,
* `runGenerate` embeds the control flow of `handleGenerate`,
  `speakAndRecord`, `transcodeWebmToMp3`, `generateImageFromText` and
  `composeVideo` over an explicit `JobState`, with every browser/library
  boundary call modelled by an `Outcomes` record of `Except` results,
* `composeVideoRun` embeds the ffmpeg invocations of `composeVideo`.
-/

namespace TTV

/-- JavaScript whitespace, as relevant to `trim`, `\s` and split points. -/
def isWs (c : Char) : Bool := c.isWhitespace

/-- Sentence-terminator characters of the regex `[.!?]` in `splitText`. -/
def isTerm (c : Char) : Bool := c = '.' || c = '!' || c = '?'

/-- `String.prototype.trim`: drop whitespace from both ends. -/
def trimL (l : List Char) : List Char :=
  ((l.dropWhile isWs).reverse.dropWhile isWs).reverse

/-- Push a segment onto a segment list unless it is empty
(`if (segment) parts.push(segment)` in `splitText`). -/
def pushSeg (seg : List Char) (rest : List (List Char)) : List (List Char) :=
  if seg.isEmpty then rest else seg :: rest

/-- Does the list start with a sentence-terminator character? -/
def headTerm : List Char → Bool
  | [] => false
  | c :: _ => isTerm c

/-- Does the list start with a newline? -/
def headNl : List Char → Bool
  | [] => false
  | c :: _ => c = '\n'

/-- The scanning loop of `splitText`: repeatedly find the next maximal run
matching `([.!?]+|\n+)`, emit the trimmed text up to and including the run,
and continue after it; finally emit the trimmed tail.  `acc` holds the
characters of the current segment in reverse. -/
def segsAux : List Char → List Char → List (List Char)
  | [], acc => pushSeg (trimL acc.reverse) []
  | c :: rest, acc =>
    if isTerm c then
      if headTerm rest then segsAux rest (c :: acc)
      else pushSeg (trimL (c :: acc).reverse) (segsAux rest [])
    else if c = '\n' then
      if headNl rest then segsAux rest (c :: acc)
      else pushSeg (trimL (c :: acc).reverse) (segsAux rest [])
    else segsAux rest (c :: acc)

/-- The `parts` array of `splitText`: sentence/newline segments of `l`. -/
def segs (l : List Char) : List (List Char) := segsAux l []

/-- The merge loop of `splitText`: greedily join adjacent segments with a
single space while the trimmed join stays within `maxLen`. -/
def mergeParts (maxLen : Nat) : List (List Char) → List Char → List (List Char)
  | [], buf => if buf.isEmpty then [] else [buf]
  | p :: ps, buf =>
    if (trimL (buf ++ ' ' :: p)).length ≤ maxLen then
      mergeParts maxLen ps (if buf.isEmpty then p else buf ++ ' ' :: p)
    else
      (if buf.isEmpty then [] else [buf]) ++ mergeParts maxLen ps p

/-- `splitText(input, maxLen)` from `src/app/layout.tsx`: trim the input,
split it into sentence/newline segments, merge small segments up to
`maxLen`, and fall back to `[remaining]` when nothing was produced. -/
def splitText (input : List Char) (maxLen : Nat) : List (List Char) :=
  let remaining := trimL input
  let merged := mergeParts maxLen (segs remaining) []
  if merged.isEmpty then [remaining] else merged

/-- `text.replace(/\s+/g, " ")` in `wrapText`: collapse every maximal run
of whitespace to a single space. -/
def collapseWs : List Char → List Char
  | [] => []
  | c :: rest =>
    if isWs c then
      match rest with
      | [] => [' ']
      | d :: _ => if isWs d then collapseWs rest else ' ' :: collapseWs rest
    else c :: collapseWs rest

/-- `String.prototype.split(" ")` (so `"".split(" ") = [""]`). -/
def splitOnSpace : List Char → List (List Char)
  | [] => [[]]
  | c :: rest =>
    if c = ' ' then [] :: splitOnSpace rest
    else
      match splitOnSpace rest with
      | [] => [[c]]
      | w :: ws => (c :: w) :: ws

/-- Join a list of lines/words with single spaces (`Array.join(" ")`). -/
def joinSpace : List (List Char) → List Char
  | [] => []
  | [l] => l
  | l :: ls => l ++ ' ' :: joinSpace ls

/-- The greedy line-filling loop of `wrapText`: extend the current line
with the next word while the measured width of the extension stays within
`maxWidth`; on overflow commit the line and start over with the word. -/
def wrapLoop (measure : List Char → Nat) (maxWidth : Nat) :
    List (List Char) → List Char → List (List Char)
  | [], line => if line.isEmpty then [] else [line]
  | w :: ws, line =>
    let test := if line.isEmpty then w else line ++ ' ' :: w
    if maxWidth < measure test then
      (if line.isEmpty then [] else [line]) ++ wrapLoop measure maxWidth ws w
    else wrapLoop measure maxWidth ws test

/-- The normalized word list `text.replace(/\s+/g, " ").trim().split(" ")`
of `wrapText`. -/
def wordsOf (text : List Char) : List (List Char) :=
  splitOnSpace (trimL (collapseWs text))

/-- `wrapText(ctx, text, maxWidth)` from `src/app/layout.tsx`, with the
canvas text measure abstracted as `measure`. -/
def wrapText (measure : List Char → Nat) (maxWidth : Nat) (text : List Char) :
    List (List Char) :=
  wrapLoop measure maxWidth (wordsOf text) []

/-- Observable events of the sequential TTS loop in `speakText` /
`speakChunk`: handing chunk `i` to `window.speechSynthesis.speak`, chunk
`i`'s `onend` callback firing, a `setState` progress report, the `onerror`
callback, and the promise settling. -/
inductive SpeakEv
  | speak (i : Nat)
  | ended (i : Nat)
  | progress (p : Nat)
  | errored (i : Nat)
  | resolved
  | rejected
deriving DecidableEq

/-- `Math.round((index / n) * 25)` computed on exact rationals:
round-half-up of `25 * index / n`. -/
def ttsProgress (index n : Nat) : Nat := (50 * index + n) / (2 * n)

/-- The event trace of `speakText`'s callback chain, speaking the chunks
of `cs` starting at index `i` out of `n` total: chunk `i` is handed to the
synthesizer; on `onend` the index advances, progress is reported, and the
next chunk (if any) is spoken, else the promise resolves; on `onerror` the
promise rejects.  `ok i` tells whether the synthesizer ends chunk `i`
normally. -/
def driveFrom (ok : Nat → Bool) (n : Nat) : Nat → List (List Char) → List SpeakEv
  | _, [] => []
  | i, _ :: rest =>
    SpeakEv.speak i ::
      if ok i then
        SpeakEv.ended i :: SpeakEv.progress (ttsProgress (i + 1) n) ::
          (match rest with
           | [] => [SpeakEv.resolved]
           | _ :: _ => driveFrom ok n (i + 1) rest)
      else [SpeakEv.errored i, SpeakEv.rejected]

/-- The full trace of the driver over a chunk list (`speakText` starts by
speaking `chunks[0]`). -/
def driveChunks (cs : List (List Char)) (ok : Nat → Bool) : List SpeakEv :=
  driveFrom ok cs.length 0 cs

/-- The trace of `speakText(text)`, which speaks
`splitText(text, 1800)` sequentially. -/
def speakTextTrace (text : List Char) (ok : Nat → Bool) : List SpeakEv :=
  driveChunks (splitText text 1800) ok

/-- The `status` field of the UI's `JobState`. -/
inductive Status
  | idle
  | capturing
  | encoding
  | ready
  | error
deriving DecidableEq

/-- The `JobState` react state of the page component. -/
structure JobState where
  text : List Char
  voiceURI : Option String := none
  rate : ℚ := 1
  pitch : ℚ := 1
  volume : ℚ := 1
  mp3Url : Option String := none
  mp4Url : Option String := none
  imageUrl : Option String := none
  durationMs : Option Nat := none
  status : Status := Status.idle
  error : Option String := none
  progress : Option Nat := none
deriving DecidableEq

/-- Pipeline stages invoked by `handleGenerate` (in invocation order). -/
inductive Stage
  | capture
  | speak
  | transcode
  | render
  | compose
deriving DecidableEq

/-- Results of the browser/library boundary calls the pipeline makes:
`getDisplayMedia`+`MediaRecorder` (capture), the speech synthesizer run,
the two ffmpeg invocations and the canvas export, plus the object-URL
constructor and the measured wall-clock duration. -/
structure Outcomes where
  capture : Except String Unit
  speech : Except String Unit
  transcode : Except String (List Nat)
  render : Except String (List Nat)
  compose : Except String (List Nat)
  mkUrl : List Nat → String
  elapsedMs : Nat

/-- The user-visible over-length message set by `handleGenerate`. -/
def tooLongMsg : String := "O texto excede 200.000 caracteres."

/-- The control flow of `handleGenerate` (with `speakAndRecord`,
`transcodeWebmToMp3`, `generateImageFromText` and `composeVideo` inlined),
as a function from the current `JobState` and the boundary-call outcomes
to the final `JobState` and the list of pipeline stages invoked.  Mirrors
the source's `setState` sequence: `speakAndRecord` first resets the job
fields and enters `capturing`; any rejection inside it sets the error
state (then `handleGenerate`'s catch ignores it); a rejection of the
canvas export or of ffmpeg's MP4 run is swallowed by `handleGenerate`'s
empty catch without touching the state. -/
def runGenerate (s : JobState) (o : Outcomes) : JobState × List Stage :=
  let text := trimL s.text
  if text.isEmpty then (s, [])
  else if 200000 < text.length then ({ s with error := some tooLongMsg }, [])
  else
    let s1 : JobState :=
      { s with status := Status.capturing, error := none, progress := some 0,
               mp3Url := none, mp4Url := none }
    match o.capture with
    | Except.error m => ({ s1 with status := Status.error, error := some m }, [Stage.capture])
    | Except.ok _ =>
      match o.speech with
      | Except.error m =>
        ({ s1 with status := Status.error, error := some m }, [Stage.capture, Stage.speak])
      | Except.ok _ =>
        let s2 : JobState := { s1 with progress := some 25 }
        match o.transcode with
        | Except.error m =>
          ({ s2 with status := Status.error, error := some m },
           [Stage.capture, Stage.speak, Stage.transcode])
        | Except.ok mp3 =>
          let s3 : JobState :=
            { s2 with status := Status.encoding, progress := some 100,
                      mp3Url := some (o.mkUrl mp3), durationMs := some o.elapsedMs }
          let s4 : JobState := { s3 with status := Status.encoding, progress := some 55 }
          match o.render with
          | Except.error _ =>
            (s4, [Stage.capture, Stage.speak, Stage.transcode, Stage.render])
          | Except.ok png =>
            let s5 : JobState := { s4 with imageUrl := some (o.mkUrl png), progress := some 65 }
            let s6 : JobState := { s5 with status := Status.encoding, progress := some 40 }
            match o.compose with
            | Except.error _ =>
              (s6, [Stage.capture, Stage.speak, Stage.transcode, Stage.render, Stage.compose])
            | Except.ok mp4 =>
              ({ s6 with status := Status.ready, progress := some 100,
                         mp4Url := some (o.mkUrl (mp4)), durationMs := some o.elapsedMs },
               [Stage.capture, Stage.speak, Stage.transcode, Stage.render, Stage.compose])

/-- The job settings `composeVideo`'s recipe must not depend on. -/
structure Job where
  text : List Char
  voiceURI : Option String
  rate : ℚ
  pitch : ℚ
  volume : ℚ

/-- One ffmpeg session: the virtual files written and the argument lists
passed to `ffmpeg.exec`. -/
structure FfmpegRun where
  writes : List (String × List Nat)
  execs : List (List String)

/-- The duration-probe arguments of `composeVideo`. -/
def probeArgs : List String := ["-i", "audio.mp3", "-f", "null", "-"]

/-- The MP4 encoding arguments of `composeVideo`. -/
def composeArgs : List String :=
  ["-loop", "1", "-i", "bg.png", "-i", "audio.mp3", "-c:v", "libx264",
   "-tune", "stillimage", "-c:a", "aac", "-b:a", "192k", "-pix_fmt", "yuv420p",
   "-shortest", "-movflags", "+faststart",
   "-vf", "fps=30,scale=1920:1080:flags=lanczos", "out.mp4"]

/-- The ffmpeg session performed by `composeVideo(mp3Blob, imageBlob)`:
write the two inputs, probe the audio, then encode with the fixed recipe.
The `Job` parameter records that the invocation may see the job's settings
but (as the theorem below proves) does not use them. -/
def composeVideoRun (mp3 png : List Nat) (job : Job) : FfmpegRun :=
  { writes := [("bg.png", png), ("audio.mp3", mp3)]
    execs := [probeArgs, composeArgs] }

/-- A concrete over-long raw input whose trimmed form is short: 200,000
spaces followed by one letter. -/
def padText : List Char := List.replicate 200000 ' ' ++ ['a']

/-- A concrete input whose trimmed form exceeds 200,000 characters. -/
def longAText : List Char := List.replicate 200001 'a'

/-- Boundary outcomes in which every stage succeeds. -/
def okOutcomes : Outcomes :=
  { capture := Except.ok (), speech := Except.ok (), transcode := Except.ok [0],
    render := Except.ok [0], compose := Except.ok [0], mkUrl := fun _ => "blob:u",
    elapsedMs := 1000 }

/-- Boundary outcomes in which the capture-permission request rejects. -/
def denyOutcomes : Outcomes :=
  { okOutcomes with capture := Except.error "Permission denied" }

/-- Non-whitespace characters (the content preserved by the Segmenter). -/
def nonWs (c : Char) : Bool := !(isWs c)

/-- The head of the list, if any, is not whitespace. -/
def headOk (l : List Char) : Prop := ∀ a t, l = a :: t → isWs a = false

/-- A list with no whitespace at either end (the shape `trimL` produces). -/
def IsTrim (l : List Char) : Prop := headOk l ∧ headOk l.reverse

/-- No two adjacent spaces. -/
def NoDbl (l : List Char) : Prop := l.Chain' (fun a b => ¬(a = ' ' ∧ b = ' '))

end TTV

namespace TTV

theorem headOk_nil : headOk [] := by
  intro a t h
  simp at h

theorem headOk_cons {c : Char} {t : List Char} (hc : isWs c = false) : headOk (c :: t) := by
  intro a s h
  cases h
  exact hc

theorem headOk_of_cons {c : Char} {t : List Char} (h : headOk (c :: t)) : isWs c = false :=
  h c t rfl

theorem headOk_append_left {a b : List Char} (h : headOk (a ++ b)) (ha : a ≠ []) :
    headOk a := by
  cases a with
  | nil => exact absurd rfl ha
  | cons c t =>
    exact headOk_cons (h c (t ++ b) rfl)

theorem headOk_append {a : List Char} (b : List Char) (h : headOk a) (ha : a ≠ []) :
    headOk (a ++ b) := by
  cases a with
  | nil => exact absurd rfl ha
  | cons c t => exact headOk_cons (headOk_of_cons h)

theorem dropWhile_of_headOk {l : List Char} (h : headOk l) : l.dropWhile isWs = l := by
  cases l with
  | nil => rfl
  | cons c t => simp [List.dropWhile_cons, headOk_of_cons h]

theorem headOk_dropWhile (l : List Char) : headOk (l.dropWhile isWs) := by
  induction l with
  | nil => exact headOk_nil
  | cons c rest ih =>
    by_cases hc : isWs c = true
    · simpa [List.dropWhile_cons, hc] using ih
    · simp only [Bool.not_eq_true] at hc
      simpa [List.dropWhile_cons, hc] using headOk_cons hc

theorem headOk_reverse_dropWhile {l : List Char} (h : headOk l.reverse) :
    headOk (l.dropWhile isWs).reverse := by
  induction l with
  | nil => exact headOk_nil
  | cons c rest ih =>
    by_cases hc : isWs c = true
    · rw [List.dropWhile_cons, if_pos hc]
      apply ih
      rcases hrev : rest.reverse with _ | ⟨b, u⟩
      · exact headOk_nil
      · apply headOk_cons
        apply h b (u ++ [c])
        rw [List.reverse_cons, hrev]
        rfl
    · simp only [Bool.not_eq_true] at hc
      rwa [List.dropWhile_cons, hc]

theorem isTrim_trimL (l : List Char) : IsTrim (trimL l) := by
  constructor
  · show headOk (((l.dropWhile isWs).reverse.dropWhile isWs).reverse)
    apply headOk_reverse_dropWhile
    rw [List.reverse_reverse]
    exact headOk_dropWhile l
  · show headOk ((((l.dropWhile isWs).reverse.dropWhile isWs).reverse).reverse)
    rw [List.reverse_reverse]
    exact headOk_dropWhile _

theorem trimL_eq_self {l : List Char} (h : IsTrim l) : trimL l = l := by
  unfold trimL
  rw [dropWhile_of_headOk h.1, dropWhile_of_headOk h.2, List.reverse_reverse]

theorem trimL_idem (l : List Char) : trimL (trimL l) = trimL l :=
  trimL_eq_self (isTrim_trimL l)

theorem isTrim_join {a b : List Char} (ha : IsTrim a) (hb : IsTrim b)
    (ha0 : a ≠ []) (hb0 : b ≠ []) : IsTrim (a ++ ' ' :: b) := by
  constructor
  · exact headOk_append _ ha.1 ha0
  · have : (a ++ ' ' :: b).reverse = b.reverse ++ (' ' :: a.reverse) := by
      simp
    rw [this]
    apply headOk_append _ hb.2
    simpa using hb0

theorem filter_nonWs_dropWhile (l : List Char) :
    (l.dropWhile isWs).filter nonWs = l.filter nonWs := by
  induction l with
  | nil => rfl
  | cons c rest ih =>
    by_cases hc : isWs c = true
    · have hnw : nonWs c = false := by simp [nonWs, hc]
      simp [List.dropWhile_cons, hc, List.filter_cons, hnw, ih]
    · simp only [Bool.not_eq_true] at hc
      simp [List.dropWhile_cons, hc]

theorem filter_nonWs_trimL (l : List Char) :
    (trimL l).filter nonWs = l.filter nonWs := by
  unfold trimL
  rw [List.filter_reverse, filter_nonWs_dropWhile, List.filter_reverse,
    List.reverse_reverse, filter_nonWs_dropWhile]

theorem filter_nonWs_of_trimL_nil {l : List Char} (h : trimL l = []) :
    l.filter nonWs = [] := by
  rw [← filter_nonWs_trimL, h]
  rfl

theorem filter_nonWs_ne_nil {l : List Char} (h : IsTrim l) (h0 : l ≠ []) :
    l.filter nonWs ≠ [] := by
  cases l with
  | nil => exact absurd rfl h0
  | cons c t =>
    have hc : nonWs c = true := by simp [nonWs, headOk_of_cons h.1]
    simp [List.filter_cons, hc]

theorem mem_pushSeg {c seg : List Char} {rest : List (List Char)}
    (h : c ∈ pushSeg seg rest) : (c = seg ∧ seg ≠ []) ∨ c ∈ rest := by
  unfold pushSeg at h
  by_cases hs : seg.isEmpty
  · rw [if_pos hs] at h
    exact Or.inr h
  · rw [if_neg hs] at h
    rcases List.mem_cons.mp h with h | h
    · exact Or.inl ⟨h, by simpa [List.isEmpty_iff] using hs⟩
    · exact Or.inr h

theorem filter_flatten_pushSeg (y : List Char) (rest : List (List Char)) :
    ((pushSeg (trimL y) rest).flatten).filter nonWs =
      y.filter nonWs ++ (rest.flatten).filter nonWs := by
  unfold pushSeg
  by_cases hs : (trimL y).isEmpty
  · rw [if_pos hs]
    rw [List.isEmpty_iff] at hs
    rw [filter_nonWs_of_trimL_nil hs]
    rfl
  · rw [if_neg hs]
    rw [List.flatten_cons, List.filter_append, filter_nonWs_trimL]

theorem segsAux_mem : ∀ (l acc : List Char), ∀ c ∈ segsAux l acc, IsTrim c ∧ c ≠ [] := by
  intro l
  induction l with
  | nil =>
    intro acc c hc
    rcases mem_pushSeg hc with ⟨h1, h2⟩ | h
    · exact ⟨h1 ▸ isTrim_trimL _, h1 ▸ h2⟩
    · simp at h
  | cons c rest ih =>
    intro acc x hx
    by_cases hterm : isTerm c = true
    · by_cases hht : headTerm rest = true
      · rw [show segsAux (c :: rest) acc = segsAux rest (c :: acc) by
          simp [segsAux, hterm, hht]] at hx
        exact ih (c :: acc) x hx
      · rw [show segsAux (c :: rest) acc =
            pushSeg (trimL ((c :: acc).reverse)) (segsAux rest []) by
          simp [segsAux, hterm, hht]] at hx
        rcases mem_pushSeg hx with ⟨h1, h2⟩ | h
        · exact ⟨h1 ▸ isTrim_trimL _, h1 ▸ h2⟩
        · exact ih [] x h
    · by_cases hnl : c = '\n'
      · by_cases hhn : headNl rest = true
        · rw [show segsAux (c :: rest) acc = segsAux rest (c :: acc) by
            simp [segsAux, hnl, hhn, isTerm]] at hx
          exact ih (c :: acc) x hx
        · rw [show segsAux (c :: rest) acc =
              pushSeg (trimL ((c :: acc).reverse)) (segsAux rest []) by
            simp [segsAux, hnl, hhn, isTerm]] at hx
          rcases mem_pushSeg hx with ⟨h1, h2⟩ | h
          · exact ⟨h1 ▸ isTrim_trimL _, h1 ▸ h2⟩
          · exact ih [] x h
      · rw [show segsAux (c :: rest) acc = segsAux rest (c :: acc) by
          simp [segsAux, hterm, hnl]] at hx
        exact ih (c :: acc) x hx

theorem segsAux_filter : ∀ (l acc : List Char),
    ((segsAux l acc).flatten).filter nonWs = (acc.reverse ++ l).filter nonWs := by
  intro l
  induction l with
  | nil =>
    intro acc
    rw [show segsAux [] acc = pushSeg (trimL acc.reverse) [] from rfl]
    rw [filter_flatten_pushSeg]
    simp
  | cons c rest ih =>
    intro acc
    by_cases hterm : isTerm c = true
    · by_cases hht : headTerm rest = true
      · rw [show segsAux (c :: rest) acc = segsAux rest (c :: acc) by
          simp [segsAux, hterm, hht]]
        rw [ih (c :: acc)]
        simp
      · rw [show segsAux (c :: rest) acc =
            pushSeg (trimL ((c :: acc).reverse)) (segsAux rest []) by
          simp [segsAux, hterm, hht]]
        rw [filter_flatten_pushSeg, ih []]
        rw [← List.filter_append]
        simp
    · by_cases hnl : c = '\n'
      · by_cases hhn : headNl rest = true
        · rw [show segsAux (c :: rest) acc = segsAux rest (c :: acc) by
            simp [segsAux, hnl, hhn, isTerm]]
          rw [ih (c :: acc)]
          simp
        · rw [show segsAux (c :: rest) acc =
              pushSeg (trimL ((c :: acc).reverse)) (segsAux rest []) by
            simp [segsAux, hnl, hhn, isTerm]]
          rw [filter_flatten_pushSeg, ih []]
          rw [← List.filter_append]
          simp
      · rw [show segsAux (c :: rest) acc = segsAux rest (c :: acc) by
          simp [segsAux, hterm, hnl]]
        rw [ih (c :: acc)]
        simp

/-- The non-whitespace content of the segments is exactly that of the input. -/
theorem segs_filter (l : List Char) :
    ((segs l).flatten).filter nonWs = l.filter nonWs := by
  rw [segs, segsAux_filter]
  rfl

theorem segs_mem {l : List Char} : ∀ c ∈ segs l, IsTrim c ∧ c ≠ [] :=
  segsAux_mem l []

theorem mergeParts_mem {L : Nat} {S : List (List Char)} :
    ∀ (ps : List (List Char)) (buf : List Char),
      (∀ p ∈ ps, IsTrim p ∧ p ≠ [] ∧ p ∈ S) →
      (buf = [] ∨ (IsTrim buf ∧ buf ≠ [] ∧ (buf.length ≤ L ∨ buf ∈ S))) →
      ∀ c ∈ mergeParts L ps buf, IsTrim c ∧ c ≠ [] ∧ (c.length ≤ L ∨ c ∈ S) := by
  intro ps
  induction ps with
  | nil =>
    intro buf _ hbuf c hc
    simp only [mergeParts] at hc
    by_cases hb : buf.isEmpty
    · rw [if_pos hb] at hc
      simp at hc
    · rw [if_neg hb] at hc
      rw [List.isEmpty_iff] at hb
      rcases hbuf with h | h
      · exact absurd h hb
      · rcases List.mem_singleton.mp hc with rfl
        exact h
  | cons p ps ih =>
    intro buf hps hbuf c hc
    have hp := hps p (List.mem_cons_self p ps)
    have hps' : ∀ q ∈ ps, IsTrim q ∧ q ≠ [] ∧ q ∈ S := fun q hq =>
      hps q (List.mem_cons_of_mem p hq)
    simp only [mergeParts] at hc
    by_cases htest : (trimL (buf ++ ' ' :: p)).length ≤ L
    · rw [if_pos htest] at hc
      by_cases hb : buf.isEmpty
      · rw [if_pos hb] at hc
        exact ih _ hps' (Or.inr ⟨hp.1, hp.2.1, Or.inr hp.2.2⟩) c hc
      · rw [if_neg hb] at hc
        rw [List.isEmpty_iff] at hb
        rcases hbuf with h | h
        · exact absurd h hb
        · have hj : IsTrim (buf ++ ' ' :: p) := isTrim_join h.1 hp.1 hb hp.2.1
          have hlen : (buf ++ ' ' :: p).length ≤ L := by
            rwa [trimL_eq_self hj] at htest
          refine ih _ hps' (Or.inr ⟨hj, ?_, Or.inl hlen⟩) c hc
          simp
    · rw [if_neg htest] at hc
      rcases List.mem_append.mp hc with h | h
      · by_cases hb : buf.isEmpty
        · rw [if_pos hb] at h
          simp at h
        · rw [if_neg hb] at h
          rw [List.isEmpty_iff] at hb
          rcases hbuf with h' | h'
          · exact absurd h' hb
          · rcases List.mem_singleton.mp h with rfl
            exact h'
      · exact ih _ hps' (Or.inr ⟨hp.1, hp.2.1, Or.inr hp.2.2⟩) c h

theorem mergeParts_filter {L : Nat} :
    ∀ (ps : List (List Char)) (buf : List Char),
      ((mergeParts L ps buf).flatten).filter nonWs =
        (buf ++ ps.flatten).filter nonWs := by
  intro ps
  induction ps with
  | nil =>
    intro buf
    simp only [mergeParts]
    by_cases hb : buf.isEmpty
    · rw [if_pos hb]
      rw [List.isEmpty_iff] at hb
      subst hb
      rfl
    · rw [if_neg hb]
      simp
  | cons p ps ih =>
    intro buf
    have hsp : nonWs ' ' = false := by decide
    simp only [mergeParts]
    by_cases htest : (trimL (buf ++ ' ' :: p)).length ≤ L
    · rw [if_pos htest]
      by_cases hb : buf.isEmpty
      · rw [if_pos hb]
        rw [List.isEmpty_iff] at hb
        subst hb
        rw [ih p]
        simp
      · rw [if_neg hb]
        rw [ih (buf ++ ' ' :: p)]
        simp [List.filter_append, List.filter_cons, hsp]
    · rw [if_neg htest]
      by_cases hb : buf.isEmpty
      · rw [if_pos hb]
        rw [List.isEmpty_iff] at hb
        subst hb
        rw [List.nil_append, ih p]
        simp
      · rw [if_neg hb]
        rw [List.flatten_append, List.filter_append, ih p]
        simp [List.filter_append]

theorem mergeParts_ne_nil {L : Nat} :
    ∀ (ps : List (List Char)) (buf : List Char),
      (∀ p ∈ ps, p ≠ []) → (buf ≠ [] ∨ ps ≠ []) → mergeParts L ps buf ≠ [] := by
  intro ps
  induction ps with
  | nil =>
    intro buf _ hor
    have hb : buf ≠ [] := by
      rcases hor with h | h
      · exact h
      · exact absurd rfl h
    simp only [mergeParts]
    rw [if_neg (by simpa [List.isEmpty_iff] using hb)]
    simp
  | cons p ps ih =>
    intro buf hps _
    have hp : p ≠ [] := hps p (List.mem_cons_self p ps)
    have hps' : ∀ q ∈ ps, q ≠ [] := fun q hq => hps q (List.mem_cons_of_mem p hq)
    simp only [mergeParts]
    by_cases htest : (trimL (buf ++ ' ' :: p)).length ≤ L
    · rw [if_pos htest]
      by_cases hb : buf.isEmpty
      · rw [if_pos hb]
        exact ih _ hps' (Or.inl hp)
      · rw [if_neg hb]
        exact ih _ hps' (Or.inl (by simp))
    · rw [if_neg htest]
      by_cases hb : buf.isEmpty
      · rw [if_pos hb]
        simpa using ih _ hps' (Or.inl hp)
      · rw [if_neg hb]
        simp

theorem segs_ne_nil {s : List Char} (h : trimL s ≠ []) : segs (trimL s) ≠ [] := by
  intro hseg
  have h1 : (trimL s).filter nonWs ≠ [] := filter_nonWs_ne_nil (isTrim_trimL s) h
  have h2 := segs_filter (trimL s)
  rw [hseg] at h2
  exact h1 h2.symm

theorem splitText_eq_merged {s : List Char} (L : Nat) (h : trimL s ≠ []) :
    splitText s L = mergeParts L (segs (trimL s)) [] := by
  have hne : mergeParts L (segs (trimL s)) [] ≠ [] :=
    mergeParts_ne_nil _ [] (fun p hp => (segs_mem p hp).2) (Or.inr (segs_ne_nil h))
  unfold splitText
  rw [if_neg (by simpa [List.isEmpty_iff] using hne)]

/-- Every chunk of a non-degenerate `splitText` run is trimmed, non-empty,
and either fits in `maxLen` or is one of the sentence segments. -/
theorem splitText_chunks {s : List Char} (L : Nat) (h : trimL s ≠ []) :
    ∀ c ∈ splitText s L, IsTrim c ∧ c ≠ [] ∧ (c.length ≤ L ∨ c ∈ segs (trimL s)) := by
  rw [splitText_eq_merged L h]
  exact mergeParts_mem _ []
    (fun p hp => ⟨(segs_mem p hp).1, (segs_mem p hp).2, hp⟩) (Or.inl rfl)

theorem splitText_of_trim_nil {s : List Char} (L : Nat) (h : trimL s = []) :
    splitText s L = [[]] := by
  unfold splitText
  rw [h]
  rfl

/-- The non-whitespace content of the concatenated chunks is exactly the
non-whitespace content of the input, in order. -/
theorem splitText_filter (s : List Char) (L : Nat) :
    ((splitText s L).flatten).filter nonWs = s.filter nonWs := by
  by_cases h : trimL s = []
  · rw [splitText_of_trim_nil L h]
    rw [← filter_nonWs_trimL s, h]
    rfl
  · rw [splitText_eq_merged L h, mergeParts_filter, List.nil_append,
      segs_filter, filter_nonWs_trimL]

theorem mem_trimL {a : Char} {l : List Char} (h : a ∈ trimL l) : a ∈ l := by
  unfold trimL at h
  rw [List.mem_reverse] at h
  have h1 := (List.dropWhile_suffix isWs).sublist.subset h
  rw [List.mem_reverse] at h1
  exact (List.dropWhile_suffix isWs).sublist.subset h1

theorem segsAux_noSplit :
    ∀ (l acc : List Char), (∀ c ∈ l, isTerm c = false ∧ c ≠ '\n') →
      segsAux l acc = pushSeg (trimL (acc.reverse ++ l)) [] := by
  intro l
  induction l with
  | nil =>
    intro acc _
    simp [segsAux]
  | cons c rest ih =>
    intro acc hl
    have hc := hl c (List.mem_cons_self c rest)
    have hrest : ∀ d ∈ rest, isTerm d = false ∧ d ≠ '\n' := fun d hd =>
      hl d (List.mem_cons_of_mem c hd)
    rw [show segsAux (c :: rest) acc = segsAux rest (c :: acc) by
      simp [segsAux, hc.1, hc.2]]
    rw [ih (c :: acc) hrest]
    simp

theorem trimL_cons_space {r : List Char} (h : IsTrim r) : trimL (' ' :: r) = r := by
  unfold trimL
  rw [List.dropWhile_cons, if_pos (by decide : isWs ' ' = true),
    dropWhile_of_headOk h.1, dropWhile_of_headOk h.2, List.reverse_reverse]

theorem mergeParts_single {L : Nat} {r : List Char} (h0 : r ≠ []) :
    mergeParts L [r] [] = [r] := by
  have hr : r.isEmpty = false := by simpa [List.isEmpty_iff] using h0
  simp only [mergeParts, List.nil_append, List.isEmpty_nil, if_pos rfl]
  by_cases htest : (trimL (' ' :: r)).length ≤ L
  · rw [if_pos htest]
    simp [mergeParts, hr]
  · rw [if_neg htest]
    simp [mergeParts, hr]

/-- On input with no sentence-terminator and no newline, the Segmenter
returns the single chunk `trimL s`. -/
theorem splitText_noSplit {s : List Char} (L : Nat)
    (h : ∀ c ∈ s, isTerm c = false ∧ c ≠ '\n') :
    splitText s L = [trimL s] := by
  by_cases h0 : trimL s = []
  · rw [splitText_of_trim_nil L h0, h0]
  · have hseg : segs (trimL s) = [trimL s] := by
      unfold segs
      rw [segsAux_noSplit (trimL s) [] (fun c hc => h c (mem_trimL hc))]
      rw [List.reverse_nil, List.nil_append, trimL_idem]
      unfold pushSeg
      rw [if_neg (by simpa [List.isEmpty_iff] using h0)]
    rw [splitText_eq_merged L h0, hseg, mergeParts_single h0]

theorem wrapLoop_mem {m : List Char → Nat} {W : Nat} {S : List (List Char)} :
    ∀ (ws : List (List Char)) (line : List Char),
      (line = [] ∨ m line ≤ W ∨ line ∈ S) → (∀ w ∈ ws, w ∈ S) →
      ∀ c ∈ wrapLoop m W ws line, m c ≤ W ∨ c ∈ S := by
  intro ws
  induction ws with
  | nil =>
    intro line hline _ c hc
    simp only [wrapLoop] at hc
    by_cases hl : line.isEmpty
    · rw [if_pos hl] at hc
      simp at hc
    · rw [if_neg hl] at hc
      rw [List.isEmpty_iff] at hl
      rcases List.mem_singleton.mp hc with rfl
      rcases hline with h | h
      · exact absurd h hl
      · exact h
  | cons w ws ih =>
    intro line hline hws c hc
    have hwS := hws w (List.mem_cons_self w ws)
    have hws' : ∀ q ∈ ws, q ∈ S := fun q hq => hws q (List.mem_cons_of_mem w hq)
    simp only [wrapLoop] at hc
    by_cases hov : W < m (if line.isEmpty then w else line ++ ' ' :: w)
    · rw [if_pos hov] at hc
      rcases List.mem_append.mp hc with h | h
      · by_cases hl : line.isEmpty
        · rw [if_pos hl] at h
          simp at h
        · rw [if_neg hl] at h
          rw [List.isEmpty_iff] at hl
          rcases List.mem_singleton.mp h with rfl
          rcases hline with h' | h'
          · exact absurd h' hl
          · exact h'
      · exact ih w (Or.inr (Or.inr hwS)) hws' c h
    · rw [if_neg hov] at hc
      push_neg at hov
      exact ih _ (Or.inr (Or.inl hov)) hws' c hc

theorem splitOnSpace_ne_nil : ∀ l : List Char, splitOnSpace l ≠ [] := by
  intro l
  cases l with
  | nil => simp [splitOnSpace]
  | cons c rest =>
    by_cases hc : c = ' '
    · simp [splitOnSpace, hc]
    · simp only [splitOnSpace, if_neg hc]
      rcases h : splitOnSpace rest with _ | ⟨w, ws⟩
      · simp
      · simp

theorem splitOnSpace_cons_nonSpace {c : Char} {rest w' : List Char}
    {ws' : List (List Char)} (hc : c ≠ ' ') (hsp : splitOnSpace rest = w' :: ws') :
    splitOnSpace (c :: rest) = (c :: w') :: ws' := by
  rw [show splitOnSpace (c :: rest) =
      match splitOnSpace rest with
      | [] => [[c]]
      | w :: ws => (c :: w) :: ws by simp [splitOnSpace, hc]]
  rw [hsp]

theorem joinSpace_splitOnSpace : ∀ l : List Char, joinSpace (splitOnSpace l) = l := by
  intro l
  induction l with
  | nil => rfl
  | cons c rest ih =>
    by_cases hc : c = ' '
    · subst hc
      rw [show splitOnSpace (' ' :: rest) = [] :: splitOnSpace rest by
        simp [splitOnSpace]]
      rcases h : splitOnSpace rest with _ | ⟨w, ws⟩
      · exact absurd h (splitOnSpace_ne_nil rest)
      · rw [h] at ih
        rw [show joinSpace ([] :: w :: ws) = [] ++ ' ' :: joinSpace (w :: ws) from rfl]
        rw [ih]
        rfl
    · rw [show splitOnSpace (c :: rest) =
          match splitOnSpace rest with
          | [] => [[c]]
          | w :: ws => (c :: w) :: ws by simp [splitOnSpace, hc]]
      rcases h : splitOnSpace rest with _ | ⟨w, ws⟩
      · exact absurd h (splitOnSpace_ne_nil rest)
      · rw [h] at ih
        rcases ws with _ | ⟨r, rs⟩
        · show c :: w = c :: rest
          rw [show joinSpace [w] = w from rfl] at ih
          rw [ih]
        · show (c :: w) ++ ' ' :: joinSpace (r :: rs) = c :: rest
          rw [show joinSpace (w :: r :: rs) = w ++ ' ' :: joinSpace (r :: rs) from rfl] at ih
          rw [List.cons_append, ih]

theorem wrapLoop_nil_start (m : List Char → Nat) (W : Nat) (w : List Char)
    (ws : List (List Char)) : wrapLoop m W (w :: ws) [] = wrapLoop m W ws w := by
  simp only [wrapLoop, List.isEmpty_nil]
  by_cases hov : W < m w
  · simp [hov]
  · simp [hov]

theorem foldl_glue_append :
    ∀ (ws : List (List Char)) (a x : List Char),
      List.foldl (fun l w => l ++ ' ' :: w) (a ++ x) ws =
        a ++ List.foldl (fun l w => l ++ ' ' :: w) x ws := by
  intro ws
  induction ws with
  | nil => intro a x; rfl
  | cons w ws ih =>
    intro a x
    show List.foldl (fun l w => l ++ ' ' :: w) ((a ++ x) ++ ' ' :: w) ws =
      a ++ List.foldl (fun l w => l ++ ' ' :: w) (x ++ ' ' :: w) ws
    rw [List.append_assoc, ih]

theorem foldl_glue_joinSpace :
    ∀ (ws : List (List Char)) (w : List Char),
      List.foldl (fun l w => l ++ ' ' :: w) w ws = joinSpace (w :: ws) := by
  intro ws
  induction ws with
  | nil => intro w; rfl
  | cons r rs ih =>
    intro w
    show List.foldl (fun l w => l ++ ' ' :: w) (w ++ ' ' :: r) rs =
      joinSpace (w :: r :: rs)
    rw [show w ++ ' ' :: r = (w ++ [' ']) ++ r by simp, foldl_glue_append, ih r]
    rcases rs with _ | ⟨q, qs⟩
    · show (w ++ [' ']) ++ joinSpace [r] = joinSpace [w, r]
      simp [joinSpace]
    · show (w ++ [' ']) ++ (r ++ ' ' :: joinSpace (q :: qs)) =
        w ++ ' ' :: (r ++ ' ' :: joinSpace (q :: qs))
      simp

theorem wrapLoop_join {m : List Char → Nat} {W : Nat} :
    ∀ (ws : List (List Char)) (line : List Char), line ≠ [] →
      (∀ w ∈ ws, w ≠ []) →
      wrapLoop m W ws line ≠ [] ∧
        joinSpace (wrapLoop m W ws line) =
          List.foldl (fun l w => l ++ ' ' :: w) line ws := by
  intro ws
  induction ws with
  | nil =>
    intro line hline _
    have hl : line.isEmpty = false := by simpa [List.isEmpty_iff] using hline
    constructor
    · simp [wrapLoop, hl]
    · simp [wrapLoop, hl]
      rfl
  | cons w ws ih =>
    intro line hline hws
    have hw : w ≠ [] := hws w (List.mem_cons_self w ws)
    have hws' : ∀ q ∈ ws, q ≠ [] := fun q hq => hws q (List.mem_cons_of_mem w hq)
    have hl : line.isEmpty = false := by simpa [List.isEmpty_iff] using hline
    simp only [wrapLoop, hl, if_neg (by simp : ¬(false = true))]
    by_cases hov : W < m (line ++ ' ' :: w)
    · rw [if_pos hov]
      obtain ⟨hne, hj⟩ := ih w hw hws'
      constructor
      · simp
      · rcases hrec : wrapLoop m W ws w with _ | ⟨r, rs⟩
        · exact absurd hrec hne
        · rw [hrec] at hj
          show joinSpace (line :: r :: rs) =
            List.foldl (fun l w => l ++ ' ' :: w) line (w :: ws)
          rw [show joinSpace (line :: r :: rs) = line ++ ' ' :: joinSpace (r :: rs)
            from rfl, hj]
          show line ++ ' ' :: List.foldl (fun l w => l ++ ' ' :: w) w ws =
            List.foldl (fun l w => l ++ ' ' :: w) (line ++ ' ' :: w) ws
          rw [show line ++ ' ' :: w = (line ++ [' ']) ++ w by simp,
            foldl_glue_append]
          simp
    · rw [if_neg hov]
      exact ih (line ++ ' ' :: w) (by simp) hws'

theorem collapseWs_cons_nonWs {d : Char} {rs : List Char} (hd : isWs d = false) :
    collapseWs (d :: rs) = d :: collapseWs rs := by
  simp [collapseWs, hd]

theorem noDbl_collapseWs : ∀ t : List Char, NoDbl (collapseWs t) := by
  intro t
  induction t with
  | nil => exact List.chain'_nil
  | cons c rest ih =>
    by_cases hc : isWs c = true
    · rcases rest with _ | ⟨d, rs⟩
      · simp [collapseWs, hc, NoDbl]
      · by_cases hd : isWs d = true
        · simpa [collapseWs, hc, hd] using ih
        · simp only [Bool.not_eq_true] at hd
          rw [show collapseWs (c :: d :: rs) = ' ' :: collapseWs (d :: rs) by
            simp [collapseWs, hc, hd]]
          refine List.chain'_cons'.mpr ⟨?_, ih⟩
          intro y hy
          rw [collapseWs_cons_nonWs hd] at hy
          simp only [List.head?_cons, Option.mem_def, Option.some.injEq] at hy
          subst hy
          intro hcontra
          rw [hcontra.2] at hd
          exact absurd hd (by decide)
    · simp only [Bool.not_eq_true] at hc
      rw [collapseWs_cons_nonWs hc]
      refine List.chain'_cons'.mpr ⟨?_, ih⟩
      intro y _
      intro hcontra
      rw [hcontra.1] at hc
      exact absurd hc (by decide)

theorem noDbl_suffix {l l' : List Char} (h : NoDbl l) (hs : l' <:+ l) : NoDbl l' := by
  obtain ⟨pre, rfl⟩ := hs
  exact (List.chain'_append.mp h).2.1

theorem noDbl_reverse {l : List Char} (h : NoDbl l) : NoDbl l.reverse := by
  apply List.chain'_reverse.mpr
  exact List.Chain'.imp (fun a b hab h2 => hab ⟨h2.2, h2.1⟩) h

theorem noDbl_trimL {l : List Char} (h : NoDbl l) : NoDbl (trimL l) := by
  unfold trimL
  apply noDbl_reverse
  apply noDbl_suffix _ (List.dropWhile_suffix isWs)
  apply noDbl_reverse
  exact noDbl_suffix h (List.dropWhile_suffix isWs)

theorem words_ne_nil :
    ∀ l : List Char, l ≠ [] →
      (∀ a t, l = a :: t → a ≠ ' ') →
      (∀ a t, l.reverse = a :: t → a ≠ ' ') →
      NoDbl l → ∀ w ∈ splitOnSpace l, w ≠ []
  | [], h0, _, _, _ => absurd rfl h0
  | [c], _, hhead, _, _ => by
    intro w hw
    have hc : c ≠ ' ' := hhead c [] rfl
    rw [show splitOnSpace [c] = [[c]] by simp [splitOnSpace, hc]] at hw
    rcases List.mem_singleton.mp hw with rfl
    simp
  | c :: d :: rest, _, hhead, hlast, hdbl => by
    intro w hw
    have hc : c ≠ ' ' := hhead c (d :: rest) rfl
    by_cases hd : d = ' '
    · subst hd
      rw [show splitOnSpace (c :: ' ' :: rest) = [c] :: splitOnSpace rest by
        simp [splitOnSpace, hc]] at hw
      rcases List.mem_cons.mp hw with rfl | hw'
      · simp
      · have hr0 : rest ≠ [] := by
          rintro rfl
          exact hlast ' ' [c] (by rfl) rfl
        have hrhead : ∀ a t, rest = a :: t → a ≠ ' ' := by
          intro a t hat
          have h2 : List.Chain' (fun a b => ¬(a = ' ' ∧ b = ' ')) (' ' :: rest) :=
            hdbl.tail
          have := (List.chain'_cons'.mp h2).1 a (by rw [hat]; rfl)
          intro ha
          exact this ⟨rfl, ha⟩
        have hrlast : ∀ a t, rest.reverse = a :: t → a ≠ ' ' := by
          intro a t hat
          apply hlast a (t ++ [' ', c])
          rw [show (c :: ' ' :: rest).reverse = rest.reverse ++ [' ', c] by simp, hat]
          rfl
        exact words_ne_nil rest hr0 hrhead hrlast hdbl.tail.tail w hw'
    · rcases hsp : splitOnSpace (d :: rest) with _ | ⟨w', ws'⟩
      · exact absurd hsp (splitOnSpace_ne_nil _)
      · rw [splitOnSpace_cons_nonSpace hc hsp] at hw
        rcases List.mem_cons.mp hw with rfl | hw'
        · simp
        · have hrhead : ∀ a t, d :: rest = a :: t → a ≠ ' ' := by
            intro a t hat
            cases hat
            exact hd
          have hrlast : ∀ a t, (d :: rest).reverse = a :: t → a ≠ ' ' := by
            intro a t hat
            apply hlast a (t ++ [c])
            rw [show (c :: d :: rest).reverse = (d :: rest).reverse ++ [c] by simp, hat]
            rfl
          apply words_ne_nil (d :: rest) (by simp) hrhead hrlast hdbl.tail w
          rw [hsp]
          exact List.mem_cons_of_mem w' hw'

theorem wordsOf_ne_nil {t : List Char} (hN : trimL (collapseWs t) ≠ []) :
    ∀ w ∈ wordsOf t, w ≠ [] := by
  have hTrim := isTrim_trimL (collapseWs t)
  apply words_ne_nil _ hN
  · intro a s ha
    have := hTrim.1 a s ha
    intro hsp
    rw [hsp] at this
    exact absurd this (by decide)
  · intro a s ha
    have := hTrim.2 a s ha
    intro hsp
    rw [hsp] at this
    exact absurd this (by decide)
  · exact noDbl_trimL (noDbl_collapseWs t)

/-- Joining `wrapText`'s lines with single spaces restores the normalized
input text: nothing is lost or duplicated by the greedy wrap. -/
theorem wrapText_joinSpace (m : List Char → Nat) (W : Nat) (t : List Char) :
    joinSpace (wrapText m W t) = trimL (collapseWs t) := by
  by_cases hN : trimL (collapseWs t) = []
  · rw [wrapText, wordsOf, hN]
    rw [show splitOnSpace [] = [[]] from rfl]
    rw [wrapLoop_nil_start]
    rfl
  · rcases hsp : wordsOf t with _ | ⟨w, ws⟩
    · exact absurd hsp (splitOnSpace_ne_nil _)
    · have hw : w ≠ [] := wordsOf_ne_nil hN w (by rw [hsp]; exact List.mem_cons_self w ws)
      have hws : ∀ q ∈ ws, q ≠ [] := fun q hq =>
        wordsOf_ne_nil hN q (by rw [hsp]; exact List.mem_cons_of_mem w hq)
      rw [wrapText, hsp, wrapLoop_nil_start]
      obtain ⟨_, hj⟩ := @wrapLoop_join m W ws w hw hws
      rw [hj, foldl_glue_joinSpace, ← hsp, wordsOf]
      exact joinSpace_splitOnSpace _

theorem driveFrom_speak {ok : Nat → Bool} {n : Nat} :
    ∀ (cs : List (List Char)) (i j m : Nat),
      (driveFrom ok n i cs).get? j = some (SpeakEv.speak m) →
      i ≤ m ∧ (i < m →
        ∃ k, k < j ∧ (driveFrom ok n i cs).get? k = some (SpeakEv.ended (m - 1))) := by
  intro cs
  induction cs with
  | nil =>
    intro i j m h
    simp [driveFrom] at h
  | cons c rest ih =>
    intro i j m h
    rcases j with _ | j
    · rw [show (driveFrom ok n i (c :: rest)).get? 0 = some (SpeakEv.speak i) by
        simp [driveFrom]] at h
      have hm : m = i := by
        injection h with h'
        injection h' with h''
        exact h''.symm
      subst hm
      exact ⟨Nat.le_refl m, fun hlt => absurd hlt (Nat.lt_irrefl m)⟩
    · by_cases hok : ok i = true
      · rcases rest with _ | ⟨r, rs⟩
        · rw [show driveFrom ok n i [c] =
              [SpeakEv.speak i, SpeakEv.ended i,
                SpeakEv.progress (ttsProgress (i + 1) n), SpeakEv.resolved] by
            simp [driveFrom, hok]] at h
          rcases j with _ | _ | _ | j <;> simp at h
        · rw [show driveFrom ok n i (c :: r :: rs) =
              SpeakEv.speak i :: SpeakEv.ended i ::
                SpeakEv.progress (ttsProgress (i + 1) n) ::
                  driveFrom ok n (i + 1) (r :: rs) by
            simp [driveFrom, hok]] at h ⊢
          rcases j with _ | j
          · simp at h
          rcases j with _ | j
          · simp at h
          rw [List.get?_cons_succ, List.get?_cons_succ, List.get?_cons_succ] at h
          obtain ⟨h1, h2⟩ := ih (i + 1) j m h
          refine ⟨Nat.le_trans (Nat.le_succ i) h1, fun hlt => ?_⟩
          rcases Nat.lt_or_ge (i + 1) m with hlt' | hge
          · obtain ⟨k, hk, hkev⟩ := h2 hlt'
            exact ⟨k + 3, by omega, by
              rw [List.get?_cons_succ, List.get?_cons_succ, List.get?_cons_succ]
              exact hkev⟩
          · have hm : m = i + 1 := Nat.le_antisymm hge h1
            subst hm
            refine ⟨1, by omega, ?_⟩
            simp
      · rw [show driveFrom ok n i (c :: rest) =
            [SpeakEv.speak i, SpeakEv.errored i, SpeakEv.rejected] by
          simp [driveFrom, hok]] at h
        rcases j with _ | _ | j <;> simp at h

theorem driveFrom_progress {ok : Nat → Bool} {n : Nat} :
    ∀ (cs : List (List Char)) (i j i' : Nat),
      (driveFrom ok n i cs).get? j = some (SpeakEv.ended i') →
      (driveFrom ok n i cs).get? (j + 1) =
        some (SpeakEv.progress (ttsProgress (i' + 1) n)) := by
  intro cs
  induction cs with
  | nil =>
    intro i j i' h
    simp [driveFrom] at h
  | cons c rest ih =>
    intro i j i' h
    rcases j with _ | j
    · rw [show (driveFrom ok n i (c :: rest)).get? 0 = some (SpeakEv.speak i) by
        simp [driveFrom]] at h
      simp at h
    · by_cases hok : ok i = true
      · rcases rest with _ | ⟨r, rs⟩
        · rw [show driveFrom ok n i [c] =
              [SpeakEv.speak i, SpeakEv.ended i,
                SpeakEv.progress (ttsProgress (i + 1) n), SpeakEv.resolved] by
            simp [driveFrom, hok]] at h ⊢
          rcases j with _ | _ | _ | j
          · have : i' = i := by
              injection h with h'
              injection h' with h''
              exact h''.symm
            subst this
            rfl
          · simp at h
          · simp at h
          · simp at h
        · rw [show driveFrom ok n i (c :: r :: rs) =
              SpeakEv.speak i :: SpeakEv.ended i ::
                SpeakEv.progress (ttsProgress (i + 1) n) ::
                  driveFrom ok n (i + 1) (r :: rs) by
            simp [driveFrom, hok]] at h ⊢
          rcases j with _ | j
          · have : i' = i := by
              rw [List.get?_cons_succ, List.get?_cons_zero] at h
              injection h with h'
              injection h' with h''
              exact h''.symm
            subst this
            rfl
          rcases j with _ | j
          · rw [List.get?_cons_succ, List.get?_cons_succ, List.get?_cons_zero] at h
            simp at h
          · rw [List.get?_cons_succ, List.get?_cons_succ, List.get?_cons_succ] at h ⊢
            exact ih (i + 1) j i' h
      · rw [show driveFrom ok n i (c :: rest) =
            [SpeakEv.speak i, SpeakEv.errored i, SpeakEv.rejected] by
          simp [driveFrom, hok]] at h
        rcases j with _ | _ | j <;> simp at h

theorem trimL_replicate (n : Nat) :
    trimL (List.replicate (n + 1) 'a') = List.replicate (n + 1) 'a' := by
  unfold trimL
  rw [List.replicate_succ, List.dropWhile_cons, if_neg (by decide), ← List.replicate_succ,
    List.reverse_replicate, List.replicate_succ, List.dropWhile_cons, if_neg (by decide),
    ← List.replicate_succ, List.reverse_replicate]

theorem dropWhile_replicate_space (l : List Char) :
    ∀ n, (List.replicate n ' ' ++ l).dropWhile isWs = l.dropWhile isWs := by
  intro n
  induction n with
  | zero => rfl
  | succ n ih =>
    rw [List.replicate_succ, List.cons_append, List.dropWhile_cons,
      if_pos (by decide : isWs ' ' = true)]
    exact ih

theorem trimL_pad (n : Nat) : trimL (List.replicate n ' ' ++ ['a']) = ['a'] := by
  unfold trimL
  rw [dropWhile_replicate_space]
  rfl

theorem runGenerate_too_long {s : JobState} (o : Outcomes)
    (h : 200000 < (trimL s.text).length) :
    runGenerate s o = ({ s with error := some tooLongMsg }, []) := by
  have h0 : (trimL s.text).isEmpty = false := by
    rw [List.isEmpty_eq_false_iff_exists_mem]
    rcases htr : trimL s.text with _ | ⟨c, t⟩
    · rw [htr] at h
      simp at h
    · exact ⟨c, List.mem_cons_self c t⟩
  simp only [runGenerate, h0, Bool.false_eq_true, if_false, if_pos h]

theorem runGenerate_capture_error {s : JobState} {o : Outcomes} {msg : String}
    (h0 : trimL s.text ≠ []) (h1 : (trimL s.text).length ≤ 200000)
    (hc : o.capture = Except.error msg) :
    runGenerate s o =
      ({ s with status := Status.error, error := some msg, progress := some 0,
                mp3Url := none, mp4Url := none }, [Stage.capture]) := by
  have h0' : (trimL s.text).isEmpty = false := by simpa [List.isEmpty_iff] using h0
  have h1' : ¬(200000 < (trimL s.text).length) := Nat.not_lt.mpr h1
  simp only [runGenerate, h0', Bool.false_eq_true, if_false, if_neg h1', hc]

theorem runGenerate_speech_error {s : JobState} {o : Outcomes} {msg : String}
    (h0 : trimL s.text ≠ []) (h1 : (trimL s.text).length ≤ 200000)
    (hcap : o.capture = Except.ok ()) (hs : o.speech = Except.error msg) :
    runGenerate s o =
      ({ s with status := Status.error, error := some msg, progress := some 0,
                mp3Url := none, mp4Url := none }, [Stage.capture, Stage.speak]) := by
  have h0' : (trimL s.text).isEmpty = false := by simpa [List.isEmpty_iff] using h0
  have h1' : ¬(200000 < (trimL s.text).length) := Nat.not_lt.mpr h1
  simp only [runGenerate, h0', Bool.false_eq_true, if_false, if_neg h1', hcap, hs]

theorem runGenerate_transcode_error {s : JobState} {o : Outcomes} {msg : String}
    (h0 : trimL s.text ≠ []) (h1 : (trimL s.text).length ≤ 200000)
    (hcap : o.capture = Except.ok ()) (hs : o.speech = Except.ok ())
    (ht : o.transcode = Except.error msg) :
    runGenerate s o =
      ({ s with status := Status.error, error := some msg, progress := some 25,
                mp3Url := none, mp4Url := none },
       [Stage.capture, Stage.speak, Stage.transcode]) := by
  have h0' : (trimL s.text).isEmpty = false := by simpa [List.isEmpty_iff] using h0
  have h1' : ¬(200000 < (trimL s.text).length) := Nat.not_lt.mpr h1
  simp only [runGenerate, h0', Bool.false_eq_true, if_false, if_neg h1', hcap, hs, ht]

/-- C1: for input whose trimmed form is non-empty, every chunk of
`splitText s L` either has length at most `L` or is a single unsplittable
sentence segment (an element of `segs (trimL s)`, which has no interior
terminator/newline split point); and the chunks concatenated in order
carry exactly the non-whitespace content of the original input — only
boundary whitespace normalization is ignored. -/
theorem claim_c1 (s : List Char) (L : Nat) (h : trimL s ≠ []) :
    (∀ c ∈ splitText s L, c.length ≤ L ∨ c ∈ segs (trimL s)) ∧
    ((splitText s L).flatten).filter nonWs = s.filter nonWs :=
  ⟨fun c hc => (splitText_chunks L h c hc).2.2, splitText_filter s L⟩

/-- Witness for C1 at the concrete input `"Hi. Bye!"` with `L = 5`. -/
theorem claim_c1_witness :
    trimL "Hi. Bye!".toList ≠ [] ∧
    ((∀ c ∈ splitText "Hi. Bye!".toList 5,
        c.length ≤ 5 ∨ c ∈ segs (trimL "Hi. Bye!".toList)) ∧
      ((splitText "Hi. Bye!".toList 5).flatten).filter nonWs =
        "Hi. Bye!".toList.filter nonWs) :=
  ⟨by decide, claim_c1 "Hi. Bye!".toList 5 (by decide)⟩

/-- C2 as stated is false: on empty input `splitText` does not return the
empty chunk sequence; it returns the one-element sequence containing the
empty string (the `[remaining]` fallback). -/
theorem claim_c2_counterexample :
    splitText [] 1800 = [[]] ∧ splitText [] 1800 ≠ [] := by
  constructor
  · rfl
  · decide

/-- C2 (amended): for every input that is empty or whitespace-only, the
Segmenter returns exactly one chunk, the empty string. -/
theorem claim_c2_amended (s : List Char) (L : Nat) (h : trimL s = []) :
    splitText s L = [[]] :=
  splitText_of_trim_nil L h

/-- Witness for the amended C2 at the whitespace-only input `" \n"`. -/
theorem claim_c2_witness :
    trimL [' ', '\n'] = [] ∧ splitText [' ', '\n'] 1800 = [[]] :=
  ⟨by decide, claim_c2_amended [' ', '\n'] 1800 (by decide)⟩

/-- C3: for every measure, maximum width, and text, each line produced by
`wrapText` either measures within the maximum width or is one of the
normalized input words (an unsplittable word kept whole on its own line). -/
theorem claim_c3 (measure : List Char → Nat) (W : Nat) (t : List Char) :
    ∀ line ∈ wrapText measure W t, measure line ≤ W ∨ line ∈ wordsOf t :=
  wrapLoop_mem (wordsOf t) [] (Or.inl rfl) (fun _ hw => hw)

/-- Witness for C3: with `measure = length` and width 5 on `"aa bb cc"`,
the line `"aa bb"` satisfies the disjunction. -/
theorem claim_c3_witness :
    List.length "aa bb".toList ≤ 5 ∨ "aa bb".toList ∈ wordsOf "aa bb cc".toList :=
  claim_c3 List.length 5 "aa bb cc".toList "aa bb".toList (by decide)

/-- C4 as stated is false: `handleGenerate` checks the length of the
trimmed text, so a raw input longer than 200,000 characters made of
200,000 spaces plus one letter passes the guard — the pipeline is invoked
and no error is set. -/
theorem claim_c4_counterexample :
    200000 < padText.length ∧
    (runGenerate { text := padText } okOutcomes).2 ≠ [] ∧
    (runGenerate { text := padText } okOutcomes).1.error = none := by
  have htrim : trimL padText = ['a'] := trimL_pad 200000
  have hrun :
      runGenerate { text := padText } okOutcomes =
        ({ text := padText, voiceURI := none, rate := 1, pitch := 1, volume := 1,
           mp3Url := some "blob:u", mp4Url := some "blob:u",
           imageUrl := some "blob:u", durationMs := some 1000,
           status := Status.ready, error := none, progress := some 100 },
         [Stage.capture, Stage.speak, Stage.transcode, Stage.render, Stage.compose]) := by
    simp only [runGenerate, okOutcomes, htrim]
    rfl
  refine ⟨?_, ?_, ?_⟩
  · rw [padText, List.length_append, List.length_replicate]
    show 200000 < 200000 + 1
    omega
  · rw [hrun]
    decide
  · rw [hrun]

/-- C4 (amended): for every job state whose trimmed text exceeds 200,000
characters, `handleGenerate` sets only the user-visible over-length error
and invokes no pipeline stage; the status (and every other field) is left
unchanged. -/
theorem claim_c4_amended (s : JobState) (o : Outcomes)
    (h : 200000 < (trimL s.text).length) :
    (runGenerate s o).1 = { s with error := some tooLongMsg } ∧
    (runGenerate s o).1.status = s.status ∧
    (runGenerate s o).2 = [] := by
  rw [runGenerate_too_long o h]
  exact ⟨rfl, rfl, rfl⟩

/-- Witness for the amended C4 at a 200,001-character trimmed input. -/
theorem claim_c4_witness :
    200000 < (trimL ({ text := longAText } : JobState).text).length ∧
    ((runGenerate { text := longAText } okOutcomes).1 =
        { ({ text := longAText } : JobState) with error := some tooLongMsg } ∧
      (runGenerate { text := longAText } okOutcomes).2 = []) := by
  have h : 200000 < (trimL ({ text := longAText } : JobState).text).length := by
    show 200000 < (trimL longAText).length
    have h1 := trimL_replicate 200000
    norm_num at h1
    rw [longAText, h1, List.length_replicate]
    omega
  exact ⟨h, (claim_c4_amended { text := longAText } okOutcomes h).1,
    (claim_c4_amended { text := longAText } okOutcomes h).2.2⟩

/-- C5: when the guards pass but the capture-permission request, the
speech run, or the MP3 transcode (each a step inside the
Speech-and-Capture Driver's try block) rejects with a non-empty message,
the job ends in the error terminal state with that message surfaced, no
MP3/MP4 artifact URL is set, and every stage after the failing one is
skipped: the invoked-stage list stops exactly at the failing stage. -/
theorem claim_c5 {s : JobState} {o : Outcomes} {msg : String}
    (h0 : trimL s.text ≠ []) (h1 : (trimL s.text).length ≤ 200000)
    (hm : msg ≠ "")
    (hc : o.capture = Except.error msg ∨
      (o.capture = Except.ok () ∧ o.speech = Except.error msg) ∨
      (o.capture = Except.ok () ∧ o.speech = Except.ok () ∧
        o.transcode = Except.error msg)) :
    (runGenerate s o).1.status = Status.error ∧
    (runGenerate s o).1.error = some msg ∧ msg ≠ "" ∧
    (runGenerate s o).1.mp3Url = none ∧
    (runGenerate s o).1.mp4Url = none ∧
    Stage.render ∉ (runGenerate s o).2 ∧
    Stage.compose ∉ (runGenerate s o).2 ∧
    ((o.capture = Except.error msg → (runGenerate s o).2 = [Stage.capture]) ∧
     (o.speech = Except.error msg → (runGenerate s o).2 = [Stage.capture] ∨
        (runGenerate s o).2 = [Stage.capture, Stage.speak]) ∧
     (o.transcode = Except.error msg → (runGenerate s o).2 = [Stage.capture] ∨
        (runGenerate s o).2 = [Stage.capture, Stage.speak] ∨
        (runGenerate s o).2 = [Stage.capture, Stage.speak, Stage.transcode])) := by
  rcases hc with hcap | ⟨hcap, hsp⟩ | ⟨hcap, hsp, htr⟩
  · rw [runGenerate_capture_error h0 h1 hcap]
    refine ⟨rfl, rfl, hm, rfl, rfl, by simp, by simp, fun _ => rfl,
      fun _ => Or.inl rfl, fun _ => Or.inl rfl⟩
  · rw [runGenerate_speech_error h0 h1 hcap hsp]
    refine ⟨rfl, rfl, hm, rfl, rfl, by simp, by simp, ?_,
      fun _ => Or.inr rfl, fun _ => Or.inr (Or.inl rfl)⟩
    intro hcap'
    rw [hcap] at hcap'
    simp at hcap'
  · rw [runGenerate_transcode_error h0 h1 hcap hsp htr]
    refine ⟨rfl, rfl, hm, rfl, rfl, by simp, by simp, ?_, ?_,
      fun _ => Or.inr (Or.inr rfl)⟩
    · intro hcap'
      rw [hcap] at hcap'
      simp at hcap'
    · intro hsp'
      rw [hsp] at hsp'
      simp at hsp'

/-- Witness for C5 at a one-character job with a denied capture request. -/
theorem claim_c5_witness :
    (runGenerate { text := ['a'] } denyOutcomes).1.status = Status.error ∧
    (runGenerate { text := ['a'] } denyOutcomes).1.error = some "Permission denied" ∧
    "Permission denied" ≠ "" ∧
    (runGenerate { text := ['a'] } denyOutcomes).1.mp3Url = none ∧
    (runGenerate { text := ['a'] } denyOutcomes).1.mp4Url = none ∧
    Stage.render ∉ (runGenerate { text := ['a'] } denyOutcomes).2 ∧
    Stage.compose ∉ (runGenerate { text := ['a'] } denyOutcomes).2 ∧
    ((denyOutcomes.capture = Except.error "Permission denied" →
        (runGenerate { text := ['a'] } denyOutcomes).2 = [Stage.capture]) ∧
     (denyOutcomes.speech = Except.error "Permission denied" →
        (runGenerate { text := ['a'] } denyOutcomes).2 = [Stage.capture] ∨
        (runGenerate { text := ['a'] } denyOutcomes).2 = [Stage.capture, Stage.speak]) ∧
     (denyOutcomes.transcode = Except.error "Permission denied" →
        (runGenerate { text := ['a'] } denyOutcomes).2 = [Stage.capture] ∨
        (runGenerate { text := ['a'] } denyOutcomes).2 = [Stage.capture, Stage.speak] ∨
        (runGenerate { text := ['a'] } denyOutcomes).2 =
          [Stage.capture, Stage.speak, Stage.transcode])) :=
  claim_c5 (by decide) (by decide) (by decide) (Or.inl rfl)

/-- C6: in the driver's event trace, chunk `N + 1` is handed to the
synthesizer only after chunk `N`'s completion callback has fired, and
every completion is immediately followed by an updated fractional
progress report. -/
theorem claim_c6 (cs : List (List Char)) (ok : Nat → Bool) :
    (∀ j N, (driveChunks cs ok).get? j = some (SpeakEv.speak (N + 1)) →
      ∃ k, k < j ∧ (driveChunks cs ok).get? k = some (SpeakEv.ended N)) ∧
    (∀ j i, (driveChunks cs ok).get? j = some (SpeakEv.ended i) →
      (driveChunks cs ok).get? (j + 1) =
        some (SpeakEv.progress (ttsProgress (i + 1) cs.length))) := by
  constructor
  · intro j N h
    obtain ⟨_, h2⟩ := driveFrom_speak cs 0 j (N + 1) h
    obtain ⟨k, hk, hkev⟩ := h2 (Nat.succ_pos N)
    exact ⟨k, hk, by simpa using hkev⟩
  · intro j i h
    exact driveFrom_progress cs 0 j i h

/-- Witness for C6 on a two-chunk run in which both chunks end normally:
`speak 1` at position 3 is preceded by `ended 0`, and `ended 0` at
position 1 is followed by a progress report. -/
theorem claim_c6_witness :
    (∃ k, k < 3 ∧ (driveChunks [['a'], ['b']] (fun _ => true)).get? k =
      some (SpeakEv.ended 0)) ∧
    (driveChunks [['a'], ['b']] (fun _ => true)).get? 2 =
      some (SpeakEv.progress (ttsProgress 1 2)) :=
  ⟨(claim_c6 [['a'], ['b']] (fun _ => true)).1 3 0 (by decide),
   (claim_c6 [['a'], ['b']] (fun _ => true)).2 1 0 (by decide)⟩

/-- C7: on input with no sentence-terminator characters and no newlines,
the Segmenter returns exactly one chunk, equal to the trimmed input. -/
theorem claim_c7 (s : List Char) (L : Nat)
    (h : ∀ c ∈ s, isTerm c = false ∧ c ≠ '\n') :
    splitText s L = [trimL s] :=
  splitText_noSplit L h

/-- Witness for C7 at the terminator-free input `"hello world"`. -/
theorem claim_c7_witness :
    splitText "hello world".toList 1800 = [trimL "hello world".toList] :=
  claim_c7 "hello world".toList 1800 (by decide)

/-- C8: `composeVideo` invokes the encoder with one fixed argument list —
loop the still image, stop at the audio's end (`-shortest`), 30 fps at
1920x1080, libx264 with yuv420p and faststart, audio re-encoded as AAC at
192k — independent of the MP3/PNG contents and of the job's text, voice,
rate, pitch, and volume. -/
theorem claim_c8 (mp3 png mp3' png' : List Nat) (j j' : Job) :
    (composeVideoRun mp3 png j).execs = (composeVideoRun mp3' png' j').execs ∧
    (composeVideoRun mp3 png j).execs =
      [["-i", "audio.mp3", "-f", "null", "-"],
       ["-loop", "1", "-i", "bg.png", "-i", "audio.mp3", "-c:v", "libx264",
        "-tune", "stillimage", "-c:a", "aac", "-b:a", "192k", "-pix_fmt", "yuv420p",
        "-shortest", "-movflags", "+faststart",
        "-vf", "fps=30,scale=1920:1080:flags=lanczos", "out.mp4"]] :=
  ⟨rfl, rfl⟩

/-- C9: `wrapText` loses and duplicates nothing — joining its lines with
single spaces equals the input with whitespace runs collapsed to single
spaces and the ends trimmed. -/
theorem claim_c9 (measure : List Char → Nat) (W : Nat) (t : List Char) :
    joinSpace (wrapText measure W t) = trimL (collapseWs t) :=
  wrapText_joinSpace measure W t

/-- C10: for non-degenerate input, every chunk of `splitText` is a
non-empty string equal to its own trim, so every utterance handed to the
synthesizer is non-empty and trimmed. -/
theorem claim_c10 (s : List Char) (L : Nat) (h : trimL s ≠ []) :
    ∀ c ∈ splitText s L, c ≠ [] ∧ trimL c = c := by
  intro c hc
  obtain ⟨ht, hne, _⟩ := splitText_chunks L h c hc
  exact ⟨hne, trimL_eq_self ht⟩

/-- Witness for C10: the chunk `"Hi."` of `splitText "Hi. Bye!" 5`. -/
theorem claim_c10_witness :
    "Hi.".toList ≠ [] ∧ trimL "Hi.".toList = "Hi.".toList :=
  claim_c10 "Hi. Bye!".toList 5 (by decide) "Hi.".toList (by decide)

end TTV
